import Mathlib

set_option maxRecDepth 8000

/- Shallow embedding of src/app.py (论文打卡核验系统): the check-in parser,
   the difflib.SequenceMatcher similarity scorer, the per-entry verification
   step, and the session record store / pending-review handling. -/

namespace PunchApp

/-! ## String utilities (Python str.strip) -/

/-- Python str.strip: drop leading and trailing whitespace characters.
Modelled over the whitespace characters that occur in practice
(space, tab, CR, LF); Python also strips a few rarer ones. -/
def stripL (l : List Char) : List Char :=
  ((l.dropWhile Char.isWhitespace).reverse.dropWhile Char.isWhitespace).reverse

/-- str.strip on a String. -/
def stripS (s : String) : String := ⟨stripL s.data⟩

/-! ## Regex models for parse_checkin (src/app.py lines 107-135)

The three regexes of the source are modelled as explicit scanning
functions, following Python backtracking semantics:
a lazy prefix before a colon class amounts to trying each colon of the
line, left to right, until the remainder of the pattern matches. -/

/-- the character class [:：] of the source regexes (half- or full-width colon). -/
def isColon (c : Char) : Bool := c == ':' || c == '：'

/-- scan for the first colon and return what follows it; models the lazy
regex fragment .*?[:：] when the rest of the pattern always succeeds. -/
def afterFirstColon : List Char → Option (List Char)
  | [] => none
  | c :: cs => if isColon c then some cs else afterFirstColon cs

/-- re.match(r'^昵称.*?[:：]\s*(.*?)$', line) followed by .strip() of group 1:
the captured text is everything after the first colon following the 昵称
label; the leading \s* plus the final strip amount to stripping the
whole remainder. -/
def nickMatch (line : String) : Option String :=
  if "昵称".data.isPrefixOf line.data then
    (afterFirstColon (line.data.drop 2)).map (fun r => (⟨stripL r⟩ : String))
  else none

/-- exactly four decimal digits, as in \d{4} (digits of the inputs at hand
are ASCII). -/
def d4 : List Char → Option (List Char × List Char)
  | c1 :: c2 :: c3 :: c4 :: rest =>
    if c1.isDigit && c2.isDigit && c3.isDigit && c4.isDigit then
      some ([c1, c2, c3, c4], rest)
    else none
  | _ => none

/-- \d{1,2} immediately followed by a '/' which is consumed: greedy two
digits first, then backtrack to one, as the regex engine does. -/
def d12slash : List Char → Option (List Char × List Char)
  | c1 :: c2 :: c3 :: rest =>
    if c1.isDigit && c2.isDigit && c3 == '/' then some ([c1, c2], rest)
    else if c1.isDigit && c2 == '/' then some ([c1], c3 :: rest)
    else none
  | [c1, c2] => if c1.isDigit && c2 == '/' then some ([c1], []) else none
  | _ => none

/-- trailing \d{1,2} with nothing after it in the pattern: greedy two
digits if available, else one. -/
def d12 : List Char → Option (List Char)
  | c1 :: c2 :: _ =>
    if c1.isDigit && c2.isDigit then some [c1, c2]
    else if c1.isDigit then some [c1] else none
  | [c1] => if c1.isDigit then some [c1] else none
  | [] => none

/-- the date token \d{4}/\d{1,2}/\d{1,2}, returned verbatim as matched. -/
def dateToken (l : List Char) : Option String := do
  let (y, r1) ← d4 l
  match r1 with
  | '/' :: r2 => do
    let (m, r3) ← d12slash r2
    let dd ← d12 r3
    pure (⟨y ++ '/' :: (m ++ '/' :: dd)⟩ : String)
  | _ => none

/-- scan for a colon whose remainder, after \s*, carries a date token;
on failure at one colon the engine extends the lazy prefix and tries the
next colon. -/
def timeGo : List Char → Option String
  | [] => none
  | c :: cs =>
    if isColon c then
      match dateToken (cs.dropWhile Char.isWhitespace) with
      | some tok => some tok
      | none => timeGo cs
    else timeGo cs

/-- re.match(r'^打卡时间.*?[:：]\s*(\d{4}/\d{1,2}/\d{1,2})', line), group 1.
The final .strip() of the source is the identity on the digit token. -/
def timeMatch (line : String) : Option String :=
  if "打卡时间".data.isPrefixOf line.data then timeGo (line.data.drop 4)
  else none

/-- after the literal boilerplate label, the lazy scan up to the first
colon, dropping everything through it. -/
def boilerTail (l : List Char) : Option (List Char) :=
  if "摘要的随机一句话".data.isPrefixOf l then afterFirstColon (l.drop 8)
  else none

/-- re.sub(r'^论文(原文)?摘要的随机一句话.*?[:：]', '', line): the optional
(原文)? group is tried greedily first; when the prefix pattern does not
match at all the line is returned unchanged. -/
def stripBoiler (line : List Char) : List Char :=
  if "论文".data.isPrefixOf line then
    let r := line.drop 2
    match (if "原文".data.isPrefixOf r then boilerTail (r.drop 2) else none) with
    | some rest => rest
    | none =>
      match boilerTail r with
      | some rest => rest
      | none => line
  else line

/-- the excerpt of the third line of a triplet: the source strips the raw
line, removes the boilerplate label if present, and strips again. -/
def excerptOf (raw : String) : String := ⟨stripL (stripBoiler (stripL raw.data))⟩

/-- parse_checkin (src/app.py lines 107-135): forward cursor over the
recognized lines; a nickname line followed by a timestamp line emits one
(nickname, punch_time, excerpt) tuple built from the next three lines and
advances the cursor by 3, anything else advances it by 1.  When fewer
than three lines remain the source can still match the nickname (and
timestamp) patterns but the bounds checks i+1 < len, i+2 < len prevent
any append, so the tail contributes no entries, exactly as the catch-all
equations below. -/
def parse_checkin : List String → List (String × String × String)
  | l0 :: l1 :: l2 :: rest =>
    match nickMatch (stripS l0) with
    | some nickname =>
      match timeMatch (stripS l1) with
      | some punch_time => (nickname, punch_time, excerptOf l2) :: parse_checkin rest
      | none => parse_checkin (l1 :: l2 :: rest)
    | none => parse_checkin (l1 :: l2 :: rest)
  | _ :: rest => parse_checkin rest
  | [] => []

/-! ## similarity (src/app.py lines 140-141): difflib.SequenceMatcher

similarity(a, b) = SequenceMatcher(None, a, b).ratio().  The matcher is
embedded over List Char with exact rational arithmetic in place of the
float division (the values the claims compare against, 0, 1 and the 0.75
threshold, are exactly representable, and the rationals that arise are
far from the rounding granularity of doubles).  isjunk is None, hence
the junk set is empty and the two junk-extension loops of
find_longest_match never fire; the autojunk purge of popular b elements
is modelled faithfully. -/

/-- number of occurrences of a character in b. -/
def countC (b : List Char) (c : Char) : Nat := (b.filter (fun x => x == c)).length

/-- the autojunk rule of SequenceMatcher.__chain_b: with len(b) >= 200,
elements occurring more than len(b) // 100 + 1 times are dropped from b2j. -/
def isPopular (b : List Char) (c : Char) : Bool :=
  decide (200 ≤ b.length) && decide (b.length / 100 + 1 < countC b c)

/-- b2j: the ascending list of indices of b holding c, with popular
elements purged (dict.get default: the empty list). -/
def b2j (b : List Char) (c : Char) : List Nat :=
  if isPopular b c then []
  else (List.range b.length).filter (fun j => b.get? j == some c)

/-- the running best match of find_longest_match. -/
structure BestM where
  besti : Nat
  bestj : Nat
  size : Nat
deriving DecidableEq, Repr

/-- one iteration of the inner j-loop of find_longest_match:
k = j2len.get(j-1, 0) + 1 against the previous row, newj2len[j] = k, and
the best triple is replaced when k exceeds its size (i-k+1 and j-k+1 are
never negative because k is at most min(i, j) + 1). -/
def innerStep (j2len : Nat → Nat) (i : Nat) (st2 : BestM × (Nat → Nat)) (j : Nat) :
    BestM × (Nat → Nat) :=
  let k := (if j = 0 then 0 else j2len (j - 1)) + 1
  ( if st2.1.size < k then ⟨i + 1 - k, j + 1 - k, k⟩ else st2.1,
    fun jp => if jp = j then k else st2.2 jp )

/-- one iteration of the outer i-loop: start a fresh newj2len and fold the
inner loop over the indices of b2j[a[i]] restricted to [blo, bhi) (the
continue / break of the source are a filter, the index list being
ascending). -/
def rowStep (a b : List Char) (blo bhi : Nat) (st : BestM × (Nat → Nat)) (i : Nat) :
    BestM × (Nat → Nat) :=
  let js := (b2j b (a.getD i ' ')).filter (fun j => decide (blo ≤ j) && decide (j < bhi))
  js.foldl (innerStep st.2 i) (st.1, fun _ => 0)

/-- the first non-junk extension while-loop of find_longest_match,
extending the best block backwards over equal characters.  The loop
decrements besti by exactly 1 per pass and stops at besti = alo at the
latest, so running it with besti as a structural counter is the loop
itself: when the counter reaches 0, besti = 0 and the guard
alo < besti is false anyway. -/
def extendBackF (a b : List Char) (alo blo : Nat) : Nat → BestM → BestM
  | 0, m => m
  | fuel + 1, m =>
    if alo < m.besti ∧ blo < m.bestj ∧ a.getD (m.besti - 1) ' ' = b.getD (m.bestj - 1) ' '
    then extendBackF a b alo blo fuel ⟨m.besti - 1, m.bestj - 1, m.size + 1⟩
    else m

def extendBack (a b : List Char) (alo blo : Nat) (m : BestM) : BestM :=
  extendBackF a b alo blo m.besti m

/-- the second non-junk extension while-loop, extending forwards.  Each
pass increments size by 1 while besti + size < ahi, so ahi - size
counts the remaining passes exactly: when it reaches 0, size is at
least ahi and the guard is false anyway. -/
def extendFwdF (a b : List Char) (ahi bhi : Nat) : Nat → BestM → BestM
  | 0, m => m
  | fuel + 1, m =>
    if m.besti + m.size < ahi ∧ m.bestj + m.size < bhi ∧
        a.getD (m.besti + m.size) ' ' = b.getD (m.bestj + m.size) ' '
    then extendFwdF a b ahi bhi fuel ⟨m.besti, m.bestj, m.size + 1⟩
    else m

def extendFwd (a b : List Char) (ahi bhi : Nat) (m : BestM) : BestM :=
  extendFwdF a b ahi bhi (ahi - m.size) m

/-- find_longest_match(alo, ahi, blo, bhi): the DP rows, then the two
extension loops (the junk-extension loops are identities since the junk
set is empty when isjunk is None). -/
def findLongestMatch (a b : List Char) (alo ahi blo bhi : Nat) : BestM :=
  let st := (List.range' alo (ahi - alo)).foldl (rowStep a b blo bhi) (⟨alo, blo, 0⟩, fun _ => 0)
  extendFwd a b ahi bhi (extendBack a b alo blo st.1)


/-! ### Bounds of find_longest_match

The recursion of get_matching_blocks terminates because the best block
lies inside the requested ranges; these bounds are established first so
that the matched-character sum below is well defined. -/

/-- fold preservation of a predicate along a list. -/
theorem foldlPreserve {α β : Type} (P : β → Prop) (f : β → α → β) :
    ∀ (l : List α) (init : β), P init → (∀ st x, x ∈ l → P st → P (f st x)) →
      P (l.foldl f init)
  | [], _, h0, _ => h0
  | x :: xs, init, h0, hstep => by
    simp only [List.foldl_cons]
    exact foldlPreserve P f xs (f init x) (hstep init x (List.mem_cons_self x xs) h0)
      (fun st y hy => hstep st y (List.mem_cons_of_mem x hy))

/-- fold of an indexed predicate along List.range' i0 n. -/
theorem foldlRangeInv {β : Type} (P : Nat → β → Prop) (f : β → Nat → β) :
    ∀ (n i0 : Nat) (init : β), P i0 init →
      (∀ i st, i0 ≤ i → i < i0 + n → P i st → P (i + 1) (f st i)) →
      P (i0 + n) ((List.range' i0 n).foldl f init)
  | 0, i0, init, h0, _ => h0
  | n + 1, i0, init, h0, hstep => by
    have h1 : P (i0 + 1) (f init i0) :=
      hstep i0 init (Nat.le_refl _) (by omega) h0
    have h2 := foldlRangeInv P f n (i0 + 1) (f init i0) h1
      (fun i st hi hi2 hp => hstep i st (by omega) (by omega) hp)
    simpa [List.range'_succ, Nat.add_assoc, Nat.add_comm 1 n] using h2

/-- invariant carried across the DP rows: the best block lies in the
ranges, and the j2len values are bounded by the number of rows processed
and by the available b-width. -/
def StInv (alo blo ahi bhi : Nat) (i : Nat) (st : BestM × (Nat → Nat)) : Prop :=
  alo ≤ st.1.besti ∧ blo ≤ st.1.bestj ∧
  st.1.besti + st.1.size ≤ ahi ∧ st.1.bestj + st.1.size ≤ bhi ∧
  (∀ j, st.2 j + alo ≤ i) ∧ (∀ j, st.2 j = 0 ∨ st.2 j + blo ≤ j + 1)

theorem innerStep_inv {alo blo ahi bhi i j : Nat} (j2len : Nat → Nat)
    (hrowlo : alo ≤ i) (hrowhi : i < ahi) (hjlo : blo ≤ j) (hjhi : j < bhi)
    (hprev1 : ∀ j', j2len j' + alo ≤ i) (hprev2 : ∀ j', j2len j' = 0 ∨ j2len j' + blo ≤ j' + 1)
    (st2 : BestM × (Nat → Nat))
    (h : StInv alo blo ahi bhi (i + 1) st2) :
    StInv alo blo ahi bhi (i + 1) (innerStep j2len i st2 j) := by
  obtain ⟨b1, b2, b3, b4, f1, f2⟩ := h
  have hk1 : (if j = 0 then 0 else j2len (j - 1)) + 1 + alo ≤ i + 1 := by
    split
    · omega
    · have := hprev1 (j - 1); omega
  have hk2 : (if j = 0 then 0 else j2len (j - 1)) + 1 + blo ≤ j + 1 := by
    split
    · omega
    · rcases hprev2 (j - 1) with h0 | hb
      · rw [h0]; omega
      · omega
  set k := (if j = 0 then 0 else j2len (j - 1)) + 1 with hkdef
  by_cases hlt : st2.1.size < k
  · refine ⟨?_, ?_, ?_, ?_, ?_, ?_⟩ <;>
      simp only [innerStep, StInv, ← hkdef, if_pos hlt]
    · show alo ≤ i + 1 - k; omega
    · show blo ≤ j + 1 - k; omega
    · show i + 1 - k + k ≤ ahi; omega
    · show j + 1 - k + k ≤ bhi; omega
    · intro j'
      show (if j' = j then k else st2.2 j') + alo ≤ i + 1
      split
      · omega
      · have := f1 j'; omega
    · intro j'
      show (if j' = j then k else st2.2 j') = 0 ∨ (if j' = j then k else st2.2 j') + blo ≤ j' + 1
      split
      · right; omega
      · exact f2 j'
  · refine ⟨?_, ?_, ?_, ?_, ?_, ?_⟩ <;>
      simp only [innerStep, StInv, ← hkdef, if_neg hlt]
    · exact b1
    · exact b2
    · exact b3
    · exact b4
    · intro j'
      show (if j' = j then k else st2.2 j') + alo ≤ i + 1
      split
      · omega
      · have := f1 j'; omega
    · intro j'
      show (if j' = j then k else st2.2 j') = 0 ∨ (if j' = j then k else st2.2 j') + blo ≤ j' + 1
      split
      · right; omega
      · exact f2 j'

theorem rowStep_inv {a b : List Char} {alo blo ahi bhi i : Nat}
    (hrowlo : alo ≤ i) (hrowhi : i < ahi)
    (st : BestM × (Nat → Nat)) (h : StInv alo blo ahi bhi i st) :
    StInv alo blo ahi bhi (i + 1) (rowStep a b blo bhi st i) := by
  obtain ⟨b1, b2, b3, b4, f1, f2⟩ := h
  have base : StInv alo blo ahi bhi (i + 1) (st.1, fun _ => 0) :=
    ⟨b1, b2, b3, b4, fun j => by show (0 : Nat) + alo ≤ i + 1; omega,
      fun j => Or.inl rfl⟩
  simp only [rowStep]
  refine foldlPreserve (StInv alo blo ahi bhi (i + 1)) (innerStep st.2 i) _ _ base ?_
  intro st2 j hj hst2
  have hj' := List.mem_filter.mp hj
  have hjlo : blo ≤ j := by
    have := hj'.2
    simp only [Bool.and_eq_true, decide_eq_true_eq] at this
    exact this.1
  have hjhi : j < bhi := by
    have := hj'.2
    simp only [Bool.and_eq_true, decide_eq_true_eq] at this
    exact this.2
  exact innerStep_inv st.2 hrowlo hrowhi hjlo hjhi f1 f2 st2 hst2

theorem extendBackF_inv (a b : List Char) (alo blo ahi bhi : Nat) :
    ∀ (fuel : Nat) (m : BestM),
      alo ≤ m.besti → blo ≤ m.bestj → m.besti + m.size ≤ ahi → m.bestj + m.size ≤ bhi →
      alo ≤ (extendBackF a b alo blo fuel m).besti ∧
      blo ≤ (extendBackF a b alo blo fuel m).bestj ∧
      (extendBackF a b alo blo fuel m).besti + (extendBackF a b alo blo fuel m).size ≤ ahi ∧
      (extendBackF a b alo blo fuel m).bestj + (extendBackF a b alo blo fuel m).size ≤ bhi
  | 0, m, h1, h2, h3, h4 => ⟨h1, h2, h3, h4⟩
  | fuel + 1, m, h1, h2, h3, h4 => by
    rw [extendBackF]
    split
    case isTrue hc =>
      exact extendBackF_inv a b alo blo ahi bhi fuel ⟨m.besti - 1, m.bestj - 1, m.size + 1⟩
        (by show alo ≤ m.besti - 1; omega) (by show blo ≤ m.bestj - 1; omega)
        (by show m.besti - 1 + (m.size + 1) ≤ ahi; omega)
        (by show m.bestj - 1 + (m.size + 1) ≤ bhi; omega)
    case isFalse hc => exact ⟨h1, h2, h3, h4⟩

theorem extendFwdF_inv (a b : List Char) (alo blo ahi bhi : Nat) :
    ∀ (fuel : Nat) (m : BestM),
      alo ≤ m.besti → blo ≤ m.bestj → m.besti + m.size ≤ ahi → m.bestj + m.size ≤ bhi →
      alo ≤ (extendFwdF a b ahi bhi fuel m).besti ∧
      blo ≤ (extendFwdF a b ahi bhi fuel m).bestj ∧
      (extendFwdF a b ahi bhi fuel m).besti + (extendFwdF a b ahi bhi fuel m).size ≤ ahi ∧
      (extendFwdF a b ahi bhi fuel m).bestj + (extendFwdF a b ahi bhi fuel m).size ≤ bhi
  | 0, m, h1, h2, h3, h4 => ⟨h1, h2, h3, h4⟩
  | fuel + 1, m, h1, h2, h3, h4 => by
    rw [extendFwdF]
    split
    case isTrue hc =>
      exact extendFwdF_inv a b alo blo ahi bhi fuel ⟨m.besti, m.bestj, m.size + 1⟩
        (by show alo ≤ m.besti; omega) (by show blo ≤ m.bestj; omega)
        (by show m.besti + (m.size + 1) ≤ ahi; omega)
        (by show m.bestj + (m.size + 1) ≤ bhi; omega)
    case isFalse hc => exact ⟨h1, h2, h3, h4⟩

/-- the block returned by find_longest_match lies inside the ranges. -/
theorem flm_le (a b : List Char) (alo ahi blo bhi : Nat)
    (ha : alo ≤ ahi) (hb : blo ≤ bhi) :
    alo ≤ (findLongestMatch a b alo ahi blo bhi).besti ∧
    blo ≤ (findLongestMatch a b alo ahi blo bhi).bestj ∧
    (findLongestMatch a b alo ahi blo bhi).besti +
      (findLongestMatch a b alo ahi blo bhi).size ≤ ahi ∧
    (findLongestMatch a b alo ahi blo bhi).bestj +
      (findLongestMatch a b alo ahi blo bhi).size ≤ bhi := by
  have base : StInv alo blo ahi bhi alo (⟨alo, blo, 0⟩, fun _ => 0) :=
    ⟨Nat.le_refl _, Nat.le_refl _, by show alo + 0 ≤ ahi; omega,
      by show blo + 0 ≤ bhi; omega,
      fun j => by show (0 : Nat) + alo ≤ alo; omega, fun j => Or.inl rfl⟩
  have rows := foldlRangeInv (StInv alo blo ahi bhi) (rowStep a b blo bhi)
    (ahi - alo) alo (⟨alo, blo, 0⟩, fun _ => 0) base
    (fun i st hi hi2 hp => rowStep_inv hi (by omega) st hp)
  rw [Nat.add_sub_cancel' ha] at rows
  obtain ⟨b1, b2, b3, b4, -, -⟩ := rows
  set st := (List.range' alo (ahi - alo)).foldl (rowStep a b blo bhi)
    (⟨alo, blo, 0⟩, fun _ => 0) with hst
  obtain ⟨c1, c2, c3, c4⟩ :=
    extendBackF_inv a b alo blo ahi bhi st.1.besti st.1 b1 b2 b3 b4
  have hfwd := extendFwdF_inv a b alo blo ahi bhi
    (ahi - (extendBack a b alo blo st.1).size) (extendBack a b alo blo st.1) c1 c2 c3 c4
  simpa only [findLongestMatch, extendBack, extendFwd, ← hst] using hfwd

/-- total matched characters of get_matching_blocks: the queue of
get_matching_blocks splits the ranges around each nonempty best block;
neither the order in which the queue is processed nor the final sort
and merging of adjacent blocks change the total size, so the sum is
computed by recursion over the two subranges.  Every recursive split
shrinks (ahi - alo) + (bhi - blo) by at least one (flm_le above), so
giving that quantity plus one as a structural counter never cuts the
recursion short. -/
def msumF (a b : List Char) : Nat → Nat → Nat → Nat → Nat → Nat
  | 0, _, _, _, _ => 0
  | fuel + 1, alo, ahi, blo, bhi =>
    if alo ≤ ahi ∧ blo ≤ bhi then
      match findLongestMatch a b alo ahi blo bhi with
      | ⟨bi, bj, k⟩ =>
        if k = 0 then 0
        else
          k + (if alo < bi ∧ blo < bj then msumF a b fuel alo bi blo bj else 0)
            + (if bi + k < ahi ∧ bj + k < bhi then
                msumF a b fuel (bi + k) ahi (bj + k) bhi else 0)
    else 0

def msum (a b : List Char) (alo ahi blo bhi : Nat) : Nat :=
  msumF a b ((ahi - alo) + (bhi - blo) + 1) alo ahi blo bhi

/-- similarity (src/app.py lines 140-141):
SequenceMatcher(None, a, b).ratio() = 2 * matches / (len(a) + len(b)),
and 1.0 on two empty strings (_calculate_ratio with length 0). -/
def similarity (a b : String) : ℚ :=
  if a.length + b.length = 0 then 1
  else 2 * ((msum a.data b.data 0 a.length 0 b.length : Nat) : ℚ) /
    ((a.length + b.length : Nat) : ℚ)

/-! ## The per-entry verification step (src/app.py lines 211-247)

For each parsed (nickname, punch_time, sentence) the source computes the
date check, the similarity check and the nickname check, builds a record
dict, appends it to st.session_state.records and, when not passed, also
appends the same dict object to st.session_state.pending_review.  The
aliasing of the record dict between the two session lists is modelled by
keeping the pending-review list as a list of indices into the record
list. -/

/-- decimal digit character of n mod 10. -/
def digitC (n : Nat) : Char := Char.ofNat (48 + n % 10)

/-- strftime zero-padded two-digit field (%m, %d), for values below 100. -/
def pad2 (n : Nat) : String := ⟨[digitC (n / 10), digitC n]⟩

/-- strftime four-digit year field (%Y), for values below 10000. -/
def pad4 (n : Nat) : String :=
  ⟨[digitC (n / 1000), digitC (n / 100), digitC (n / 10), digitC n]⟩

/-- date.today().strftime("%Y/%m/%d") for today = (y, m, d): the strftime
fields %m and %d are zero-padded to two digits. -/
def todayStr (y m d : Nat) : String := pad4 y ++ "/" ++ pad2 m ++ "/" ++ pad2 d

/-- the format the specification asserts for the date comparison:
today written as YYYY/M/D with no zero-padding.  This definition follows
the words of the specification, for comparison against the source's
todayStr; it is not part of the source embedding. -/
def specTodayUnpadded (y m d : Nat) : String :=
  Nat.repr y ++ "/" ++ Nat.repr m ++ "/" ++ Nat.repr d

/-- THRESHOLD = 0.75 (src/app.py line 30). -/
def THRESHOLD : ℚ := 3 / 4

/-- Python round(x, 2): round half to even at two decimals, on the exact
rational value of x (the float representation noise of the source only
matters at exact .005 ties, which the claims at hand stay away from). -/
def round2 (q : ℚ) : ℚ :=
  (((if q * 100 - ⌊q * 100⌋ < 1 / 2 then ⌊q * 100⌋
     else if 1 / 2 < q * 100 - ⌊q * 100⌋ then ⌊q * 100⌋ + 1
     else if ⌊q * 100⌋ % 2 = 0 then ⌊q * 100⌋ else ⌊q * 100⌋ + 1) : ℤ) : ℚ) / 100

/-- Python substring containment x in y: x occurs contiguously in y. -/
def isSub (x y : String) : Bool := decide (x.data <:+: y.data)

/-- a parsed check-in entry, as the tuple destructured at line 211. -/
structure Entry where
  nickname : String
  punch_time : String
  sentence : String
deriving DecidableEq, Repr

/-- the record dict built at lines 234-243 (昵称, 打卡日期, 摘录句子,
相似度, 日期有效, 相似度达标, 昵称有效, 通过). -/
structure Verdict where
  nickname : String
  punchDate : String
  sentence : String
  sim : ℚ
  dateValid : Bool
  simPass : Bool
  nickValid : Bool
  passed : Bool
deriving DecidableEq, Repr

/-- lines 211-243: the verdict record for one entry given the day's
reference abstract, the optional member roster and today's date.
The truthiness tests `if standard_abstract:` and `if member_nicknames:`
are emptiness tests. -/
def verdictOf (standard_abstract : String) (member_nicknames : List String)
    (today : Nat × Nat × Nat) (e : Entry) : Verdict :=
  let is_date_valid : Bool :=
    e.punch_time == todayStr today.1 today.2.1 today.2.2
  let simPair : ℚ × Bool :=
    if standard_abstract == "" then (0, false)
    else (similarity e.sentence standard_abstract,
          decide (THRESHOLD ≤ similarity e.sentence standard_abstract))
  let nick_valid : Bool :=
    if member_nicknames.isEmpty then true
    else member_nicknames.any (fun m => isSub e.nickname m || isSub m e.nickname)
  let passed : Bool := is_date_valid && simPair.2 && nick_valid
  { nickname := e.nickname, punchDate := e.punch_time, sentence := e.sentence,
    sim := round2 simPair.1, dateValid := is_date_valid, simPass := simPair.2,
    nickValid := nick_valid, passed := passed }

/-- the session state: st.session_state.records and
st.session_state.pending_review, the latter as indices into the former
because in the source the two lists alias the same record dicts. -/
structure AppState where
  records : List Verdict
  pending_review : List Nat
deriving DecidableEq, Repr

/-- lines 244-247: append the record; when not passed, also append it
(by reference, here: by index) to the pending-review list. -/
def processEntry (standard_abstract : String) (member_nicknames : List String)
    (today : Nat × Nat × Nat) (st : AppState) (e : Entry) : AppState :=
  let record := verdictOf standard_abstract member_nicknames today e
  { records := st.records ++ [record],
    pending_review :=
      st.pending_review ++ if record.passed then [] else [st.records.length] }

/-- set passed on the records named by the pending list, walking the
record list with its position (rec["通过"] = True mutates the shared
dict, hence every aliased occurrence). -/
def approveFrom (pending : List Nat) : Nat → List Verdict → List Verdict
  | _, [] => []
  | i, r :: rs =>
    (if i ∈ pending then { r with passed := true } else r) :: approveFrom pending (i + 1) rs

/-- lines 263-267 (the pending-review force-approve button): set
passed = true on every pending record, then clear the pending list. -/
def forceApproveAll (st : AppState) : AppState :=
  { records := approveFrom st.pending_review 0 st.records, pending_review := [] }

/-! ## Lemmas about stripping and the parser -/

theorem dropWhile_head_not (p : Char → Bool) :
    ∀ (l : List Char) (c : Char), (l.dropWhile p).head? = some c → p c = false
  | [], c, h => by simp [List.dropWhile] at h
  | x :: xs, c, h => by
    rw [List.dropWhile_cons] at h
    split at h
    · exact dropWhile_head_not p xs c h
    · simp only [List.head?_cons, Option.some.injEq] at h
      subst h
      rename_i hx
      exact Bool.eq_false_iff.mpr hx

theorem dropWhile_eq_self_of_head (p : Char → Bool) (l : List Char)
    (h : ∀ c, l.head? = some c → p c = false) : l.dropWhile p = l := by
  cases l with
  | nil => rfl
  | cons x xs =>
    rw [List.dropWhile_cons, h x rfl]
    simp

theorem getLast?_dropWhile (p : Char → Bool) :
    ∀ (l : List Char) (c : Char), (l.dropWhile p).getLast? = some c → l.getLast? = some c
  | [], c, h => by simp [List.dropWhile] at h
  | x :: xs, c, h => by
    rw [List.dropWhile_cons] at h
    split at h
    · cases xs with
      | nil => simp [List.dropWhile] at h
      | cons y ys =>
        rw [List.getLast?_cons_cons]
        exact getLast?_dropWhile p (y :: ys) c h
    · exact h

theorem stripL_head_not (l : List Char) (c : Char)
    (h : (stripL l).head? = some c) : Char.isWhitespace c = false := by
  unfold stripL at h
  rw [List.head?_reverse] at h
  have h2 := getLast?_dropWhile _ _ _ h
  rw [List.getLast?_reverse] at h2
  exact dropWhile_head_not _ _ _ h2

theorem stripL_last_not (l : List Char) (c : Char)
    (h : (stripL l).getLast? = some c) : Char.isWhitespace c = false := by
  unfold stripL at h
  rw [List.getLast?_reverse] at h
  exact dropWhile_head_not _ _ _ h

theorem stripL_eq_self (m : List Char)
    (h1 : ∀ c, m.head? = some c → Char.isWhitespace c = false)
    (h2 : ∀ c, m.getLast? = some c → Char.isWhitespace c = false) :
    stripL m = m := by
  unfold stripL
  rw [dropWhile_eq_self_of_head _ _ h1]
  rw [dropWhile_eq_self_of_head _ _ (fun c hc => h2 c (by rwa [List.head?_reverse] at hc))]
  exact List.reverse_reverse m

/-- stripping is idempotent, hence parser outputs are already trimmed. -/
theorem stripL_idem (l : List Char) : stripL (stripL l) = stripL l :=
  stripL_eq_self _ (stripL_head_not l) (stripL_last_not l)

/-- a successful nickname match is already trimmed. -/
theorem nickMatch_trimmed (line : String) (n : String)
    (h : nickMatch line = some n) : stripS n = n := by
  unfold nickMatch at h
  split at h
  · rw [Option.map_eq_some'] at h
    obtain ⟨r, -, hr⟩ := h
    subst hr
    show (⟨stripL (stripL r)⟩ : String) = ⟨stripL r⟩
    rw [stripL_idem]
  · exact absurd h (by simp)

/-- the excerpt of a line is already trimmed. -/
theorem excerptOf_trimmed (raw : String) : stripS (excerptOf raw) = excerptOf raw := by
  show (⟨stripL (stripL (stripBoiler (stripL raw.data)))⟩ : String) = _
  rw [stripL_idem]
  rfl

/-- a full three-line match emits the entry and advances the cursor by 3. -/
theorem parse_cons_full (l0 l1 l2 : String) (rest : List String) (n t : String)
    (hn : nickMatch (stripS l0) = some n) (ht : timeMatch (stripS l1) = some t) :
    parse_checkin (l0 :: l1 :: l2 :: rest) = (n, t, excerptOf l2) :: parse_checkin rest := by
  simp only [parse_checkin, hn, ht]

/-- a line that is not a nickname line is skipped: the cursor advances by 1. -/
theorem parse_skip_nick (l0 : String) (rest : List String)
    (hn : nickMatch (stripS l0) = none) :
    parse_checkin (l0 :: rest) = parse_checkin rest := by
  match rest with
  | [] => rfl
  | [x] => rfl
  | x :: y :: rs => simp only [parse_checkin, hn]

/-- a nickname line whose follower is not a timestamp line emits nothing:
the cursor advances by 1 and the scan resumes from the follower. -/
theorem parse_skip_time (l0 l1 : String) (rest : List String) (n : String)
    (hn : nickMatch (stripS l0) = some n) (ht : timeMatch (stripS l1) = none) :
    parse_checkin (l0 :: l1 :: rest) = parse_checkin (l1 :: rest) := by
  match rest with
  | [] => rfl
  | x :: rs => simp only [parse_checkin, hn, ht]

/-- without a complete triplet anywhere (a nickname line immediately
followed by a timestamp line, with a third line available), the parse is
empty. -/
theorem parse_no_triplet :
    ∀ lines : List String,
      (∀ i a bl, lines.get? i = some a → lines.get? (i + 1) = some bl →
        lines.get? (i + 2) ≠ none →
        ¬((nickMatch (stripS a)).isSome ∧ (timeMatch (stripS bl)).isSome)) →
      parse_checkin lines = []
  | [], _ => rfl
  | [_], _ => rfl
  | [_, _], _ => rfl
  | l0 :: l1 :: l2 :: rest, h => by
    have hshift : ∀ i a bl, (l1 :: l2 :: rest).get? i = some a →
        (l1 :: l2 :: rest).get? (i + 1) = some bl →
        (l1 :: l2 :: rest).get? (i + 2) ≠ none →
        ¬((nickMatch (stripS a)).isSome ∧ (timeMatch (stripS bl)).isSome) :=
      fun i a bl h1 h2 h3 => h (i + 1) a bl h1 h2 h3
    cases hn : nickMatch (stripS l0) with
    | none =>
      rw [parse_skip_nick _ _ hn]
      exact parse_no_triplet (l1 :: l2 :: rest) hshift
    | some n =>
      cases ht : timeMatch (stripS l1) with
      | none =>
        rw [parse_skip_time _ _ _ _ hn ht]
        exact parse_no_triplet (l1 :: l2 :: rest) hshift
      | some t =>
        exact absurd ⟨by rw [hn]; rfl, by rw [ht]; rfl⟩
          (h 0 l0 l1 rfl rfl (by simp))

/-! ## Lemmas about the verification step -/

/-- the record fields for a non-empty reference abstract. -/
theorem verdictOf_fields (standard_abstract : String) (member_nicknames : List String)
    (today : Nat × Nat × Nat) (e : Entry) (h : standard_abstract ≠ "") :
    (verdictOf standard_abstract member_nicknames today e).sim =
      round2 (similarity e.sentence standard_abstract) ∧
    (verdictOf standard_abstract member_nicknames today e).simPass =
      decide (THRESHOLD ≤ similarity e.sentence standard_abstract) ∧
    (verdictOf standard_abstract member_nicknames today e).dateValid =
      (e.punch_time == todayStr today.1 today.2.1 today.2.2) ∧
    (verdictOf standard_abstract member_nicknames today e).nickValid =
      (if member_nicknames.isEmpty then true
       else member_nicknames.any (fun m => isSub e.nickname m || isSub m e.nickname)) := by
  have hb : (standard_abstract == "") = false := beq_eq_false_iff_ne.mpr h
  refine ⟨?_, ?_, ?_, ?_⟩ <;> simp [verdictOf, hb]

/-- the approve walk only rewrites the passed field, at the listed
positions. -/
theorem approveFrom_get (P : List Nat) :
    ∀ (l : List Verdict) (k i : Nat),
      (approveFrom P k l).get? i =
        (l.get? i).map (fun r => if k + i ∈ P then { r with passed := true } else r)
  | [], k, i => by simp [approveFrom]
  | r :: rs, k, 0 => by simp [approveFrom]
  | r :: rs, k, i + 1 => by
    have := approveFrom_get P rs (k + 1) i
    simp only [approveFrom, List.get?_cons_succ, this]
    have : k + 1 + i = k + (i + 1) := by omega
    rw [this]

/-- approving against an empty pending list changes nothing. -/
theorem approveFrom_nil : ∀ (l : List Verdict) (k : Nat), approveFrom [] k l = l
  | [], _ => rfl
  | r :: rs, k => by simp [approveFrom, approveFrom_nil rs (k + 1)]

/-! ## similarity of a string with itself

Even with the autojunk purge, SequenceMatcher(None, a, a).ratio() is 1:
the DP rows only ever promote diagonal blocks (an off-diagonal repeat is
always preceded, in scan order, by an at-least-as-long diagonal run over
the same kept characters), and from a diagonal block the two extension
loops, which ignore the purge, stretch the match to the whole string.
kr i is the length of the maximal suffix of a[0..i] made of kept
(non-popular) characters: the DP value on the diagonal. -/

def kr (s : List Char) : Nat → Nat
  | 0 => if isPopular s (s.getD 0 ' ') then 0 else 1
  | i + 1 => if isPopular s (s.getD (i + 1) ' ') then 0 else kr s i + 1

/-- the best size after the first i rows: the maximum of kr below i. -/
def maxKrB (s : List Char) : Nat → Nat
  | 0 => 0
  | i + 1 => max (maxKrB s i) (kr s i)

theorem kr_le_succ (s : List Char) : ∀ i, kr s i ≤ i + 1
  | 0 => by unfold kr; split <;> omega
  | i + 1 => by
    have := kr_le_succ s i
    unfold kr
    split <;> omega

theorem kr_le_maxKrB (s : List Char) : ∀ i j, j < i → kr s j ≤ maxKrB s i
  | 0, j, h => absurd h (Nat.not_lt_zero j)
  | i + 1, j, h => by
    unfold maxKrB
    rcases Nat.lt_or_ge j i with hj | hj
    · exact Nat.le_trans (kr_le_maxKrB s i j hj) (Nat.le_max_left _ _)
    · have : j = i := by omega
      subst this
      exact Nat.le_max_right _ _

/-- kr at a kept character position. -/
theorem kr_zero_kept (s : List Char) (h : isPopular s (s.getD 0 ' ') = false) :
    kr s 0 = 1 := by
  show (if isPopular s (s.getD 0 ' ') = true then 0 else 1) = 1
  rw [h]
  simp

theorem kr_succ_kept (s : List Char) (i : Nat)
    (h : isPopular s (s.getD (i + 1) ' ') = false) :
    kr s (i + 1) = kr s i + 1 := by
  show (if isPopular s (s.getD (i + 1) ' ') = true then 0 else kr s i + 1) = kr s i + 1
  rw [h]
  simp

theorem kr_pos_kept (s : List Char) (j : Nat)
    (h : isPopular s (s.getD j ' ') = false) : 1 ≤ kr s j := by
  cases j with
  | zero => rw [kr_zero_kept s h]
  | succ jj => rw [kr_succ_kept s jj h]; omega

/-- kr at a popular character position. -/
theorem kr_popular (s : List Char) (i : Nat)
    (h : isPopular s (s.getD i ' ') = true) : kr s i = 0 := by
  cases i with
  | zero =>
    show (if isPopular s (s.getD 0 ' ') = true then 0 else 1) = 0
    rw [h]
    simp
  | succ ii =>
    show (if isPopular s (s.getD (ii + 1) ' ') = true then 0 else kr s ii + 1) = 0
    rw [h]
    simp

/-- characters listed in b2j s c are occurrences of c. -/
theorem b2j_mem (s : List Char) (c : Char) (j : Nat) (h : j ∈ b2j s c) :
    s.get? j = some c ∧ j < s.length ∧ isPopular s c = false := by
  unfold b2j at h
  split at h
  · exact absurd h (List.not_mem_nil j)
  · rename_i hpop
    have h2 := List.mem_filter.mp h
    have h3 : s.get? j = some c := by
      have := h2.2
      simpa using this
    exact ⟨h3, List.mem_range.mp h2.1, Bool.eq_false_iff.mpr hpop⟩

/-- get? and getD agree in range. -/
theorem getD_of_get? (s : List Char) (j : Nat) (c : Char)
    (h : s.get? j = some c) : s.getD j ' ' = c := by
  simp [List.getD_eq_getElem?_getD, ← List.get?_eq_getElem?, h]

/-- the diagonal index i is listed in b2j for its own kept character. -/
theorem b2j_self_mem (s : List Char) (i : Nat) (hin : i < s.length)
    (hkept : isPopular s (s.getD i ' ') = false) :
    i ∈ b2j s (s.getD i ' ') := by
  unfold b2j
  rw [if_neg (by rw [hkept]; simp)]
  refine List.mem_filter.mpr ⟨List.mem_range.mpr hin, ?_⟩
  cases hg : s.get? i with
  | none =>
    rw [List.get?_eq_none] at hg
    omega
  | some c =>
    rw [getD_of_get? s i c hg]
    simp

/-- the k value computed against the previous row of the self-comparison
is bounded by the kept-run lengths on both sides. -/
theorem k_bound (s : List Char) (i j : Nat)
    (hkept : isPopular s (s.getD i ' ') = false)
    (hchar : s.get? j = some (s.getD i ' '))
    (f : Nat → Nat)
    (hf4 : ∀ j', f j' = 0 ∨ (f j' ≤ kr s j' ∧ 1 ≤ i ∧ f j' ≤ kr s (i - 1))) :
    (if j = 0 then 0 else f (j - 1)) + 1 ≤ kr s j ∧
    (if j = 0 then 0 else f (j - 1)) + 1 ≤ kr s i := by
  have hgd : s.getD j ' ' = s.getD i ' ' := getD_of_get? s j _ hchar
  have hkeptj : isPopular s (s.getD j ' ') = false := by rw [hgd]; exact hkept
  constructor
  · cases j with
    | zero =>
      rw [if_pos rfl, kr_zero_kept s hkeptj]
    | succ jj =>
      rw [if_neg (Nat.succ_ne_zero jj), Nat.add_sub_cancel,
        kr_succ_kept s jj hkeptj]
      rcases hf4 jj with h0 | ⟨hb, -, -⟩
      · omega
      · omega
  · have hkri : 1 ≤ kr s i := kr_pos_kept s i hkept
    cases j with
    | zero =>
      rw [if_pos rfl]
      omega
    | succ jj =>
      rw [if_neg (Nat.succ_ne_zero jj), Nat.add_sub_cancel]
      rcases hf4 jj with h0 | ⟨-, hip, hb⟩
      · omega
      · cases i with
        | zero => omega
        | succ ii =>
          rw [kr_succ_kept s ii hkept]
          simp only [Nat.add_sub_cancel] at hb
          omega

/-- the inner-loop step, written out. -/
theorem innerStep_def (f : Nat → Nat) (i : Nat) (st2 : BestM × (Nat → Nat)) (j : Nat) :
    innerStep f i st2 j =
    ( if st2.1.size < (if j = 0 then 0 else f (j - 1)) + 1
      then ⟨i + 1 - ((if j = 0 then 0 else f (j - 1)) + 1),
            j + 1 - ((if j = 0 then 0 else f (j - 1)) + 1),
            (if j = 0 then 0 else f (j - 1)) + 1⟩
      else st2.1,
      fun jp => if jp = j then (if j = 0 then 0 else f (j - 1)) + 1 else st2.2 jp ) := rfl

/-- invariant across the DP rows of the self comparison: the best block
sits on the diagonal with the largest kept-run seen so far as its size,
and the row values are bounded by the kept runs through both ends. -/
def SelfInv (s : List Char) (i : Nat) (st : BestM × (Nat → Nat)) : Prop :=
  st.1.bestj = st.1.besti ∧
  st.1.size = maxKrB s i ∧
  st.1.besti + st.1.size ≤ i ∧
  (∀ j, st.2 j = 0 ∨ (st.2 j ≤ kr s j ∧ 1 ≤ i ∧ st.2 j ≤ kr s (i - 1))) ∧
  (∀ j, j + 1 = i → st.2 j = kr s j)

/-- splitting the occurrence list of the row character around the
diagonal index. -/
theorem js_split (s : List Char) (i : Nat) (hin : i < s.length)
    (hkept : isPopular s (s.getD i ' ') = false) :
    b2j s (s.getD i ' ') =
      ((List.range' 0 i).filter (fun j => s.get? j == some (s.getD i ' '))) ++
      i :: ((List.range' (i + 1) (s.length - (i + 1))).filter
        (fun j => s.get? j == some (s.getD i ' '))) := by
  unfold b2j
  rw [if_neg (by rw [hkept]; simp)]
  have h1 : List.range' 0 i ++ List.range' i (s.length - i) = List.range' 0 s.length := by
    have h := List.range'_append 0 i (s.length - i) 1
    simp only [Nat.one_mul, Nat.zero_add] at h
    rw [h]
    congr 1
    omega
  have h2 : List.range' i (s.length - i) = i :: List.range' (i + 1) (s.length - (i + 1)) := by
    have h3 : s.length - i = (s.length - (i + 1)) + 1 := by omega
    rw [h3, List.range'_succ]
  have hpi : (s.get? i == some (s.getD i ' ')) = true := by
    cases hg : s.get? i with
    | none =>
      rw [List.get?_eq_none] at hg
      omega
    | some c =>
      rw [getD_of_get? s i c hg]
      simp
  rw [List.range_eq_range', ← h1, List.filter_append, h2, List.filter_cons]
  rw [hpi]
  simp

/-- phase A: folding the occurrences left of the diagonal neither moves
the best block nor overflows the row bounds. -/
theorem selfPhaseA (s : List Char) (i : Nat)
    (hkept : isPopular s (s.getD i ' ') = false)
    (f : Nat → Nat)
    (hf4 : ∀ j', f j' = 0 ∨ (f j' ≤ kr s j' ∧ 1 ≤ i ∧ f j' ≤ kr s (i - 1)))
    (best0 : BestM) (hb2 : best0.size = maxKrB s i)
    (L1 : List Nat)
    (hL1 : ∀ j ∈ L1, j < i ∧ s.get? j = some (s.getD i ' '))
    (init : BestM × (Nat → Nat))
    (hinit : init.1 = best0 ∧
      (∀ jp, init.2 jp = 0 ∨ (init.2 jp ≤ kr s jp ∧ init.2 jp ≤ kr s i))) :
    (L1.foldl (innerStep f i) init).1 = best0 ∧
    (∀ jp, (L1.foldl (innerStep f i) init).2 jp = 0 ∨
      ((L1.foldl (innerStep f i) init).2 jp ≤ kr s jp ∧
       (L1.foldl (innerStep f i) init).2 jp ≤ kr s i)) := by
  refine foldlPreserve
    (fun st2 => st2.1 = best0 ∧
      (∀ jp, st2.2 jp = 0 ∨ (st2.2 jp ≤ kr s jp ∧ st2.2 jp ≤ kr s i)))
    (innerStep f i) L1 init hinit ?_
  intro st2 j hj hq
  obtain ⟨hb, hf⟩ := hq
  obtain ⟨hjlt, hchar⟩ := hL1 j hj
  have hk := k_bound s i j hkept hchar f hf4
  rw [innerStep_def]
  constructor
  · dsimp only
    rw [if_neg (by rw [hb, hb2]; have := kr_le_maxKrB s i j hjlt; omega), hb]
  · intro jp
    dsimp only
    split
    · rename_i hjj
      subst hjj
      exact Or.inr hk
    · exact hf jp

/-- phase C: folding the occurrences right of the diagonal, after the
diagonal has been processed, changes nothing relevant either. -/
theorem selfPhaseC (s : List Char) (i : Nat)
    (hkept : isPopular s (s.getD i ' ') = false)
    (f : Nat → Nat)
    (hf4 : ∀ j', f j' = 0 ∨ (f j' ≤ kr s j' ∧ 1 ≤ i ∧ f j' ≤ kr s (i - 1)))
    (best1 : BestM) (hb2 : kr s i ≤ best1.size)
    (L2 : List Nat)
    (hL2 : ∀ j ∈ L2, i < j ∧ s.get? j = some (s.getD i ' '))
    (init : BestM × (Nat → Nat))
    (hinit : init.1 = best1 ∧
      (∀ jp, init.2 jp = 0 ∨ (init.2 jp ≤ kr s jp ∧ init.2 jp ≤ kr s i)) ∧
      init.2 i = kr s i) :
    (L2.foldl (innerStep f i) init).1 = best1 ∧
    (∀ jp, (L2.foldl (innerStep f i) init).2 jp = 0 ∨
      ((L2.foldl (innerStep f i) init).2 jp ≤ kr s jp ∧
       (L2.foldl (innerStep f i) init).2 jp ≤ kr s i)) ∧
    (L2.foldl (innerStep f i) init).2 i = kr s i := by
  refine foldlPreserve
    (fun st2 => st2.1 = best1 ∧
      (∀ jp, st2.2 jp = 0 ∨ (st2.2 jp ≤ kr s jp ∧ st2.2 jp ≤ kr s i)) ∧
      st2.2 i = kr s i)
    (innerStep f i) L2 init hinit ?_
  intro st2 j hj hq
  obtain ⟨hb, hf, hdi⟩ := hq
  obtain ⟨hjgt, hchar⟩ := hL2 j hj
  have hk := k_bound s i j hkept hchar f hf4
  rw [innerStep_def]
  refine ⟨?_, ?_, ?_⟩
  · dsimp only
    rw [if_neg (by rw [hb]; omega), hb]
  · intro jp
    dsimp only
    split
    · rename_i hjj
      subst hjj
      exact Or.inr hk
    · exact hf jp
  · dsimp only
    rw [if_neg (by omega)]
    exact hdi

/-- one DP row of the self comparison preserves the invariant. -/
theorem selfRow (s : List Char) (i : Nat) (hin : i < s.length)
    (st : BestM × (Nat → Nat)) (h : SelfInv s i st) :
    SelfInv s (i + 1) (rowStep s s 0 s.length st i) := by
  obtain ⟨g1, g2, g3, g4, g5⟩ := h
  have hfiltid : ∀ l : List Nat, (∀ j ∈ l, j < s.length) →
      l.filter (fun j => decide (0 ≤ j) && decide (j < s.length)) = l := by
    intro l hl
    refine List.filter_eq_self.mpr ?_
    intro j hj
    simp [hl j hj]
  by_cases hpop : isPopular s (s.getD i ' ') = true
  · -- popular row character: the row is empty and the row values reset
    have hb2j : b2j s (s.getD i ' ') = [] := by
      unfold b2j
      rw [if_pos hpop]
    have hrow : rowStep s s 0 s.length st i = (st.1, fun _ => 0) := by
      unfold rowStep
      rw [hb2j]
      rfl
    rw [hrow]
    refine ⟨g1, ?_, ?_, fun j => Or.inl rfl, ?_⟩
    · show st.1.size = max (maxKrB s i) (kr s i)
      rw [kr_popular s i hpop, Nat.max_zero]
      exact g2
    · show st.1.besti + st.1.size ≤ i + 1
      omega
    · intro j hj
      have hji : j = i := by omega
      subst hji
      show (0 : Nat) = kr s j
      rw [kr_popular s j hpop]
  · have hkept : isPopular s (s.getD i ' ') = false := Bool.eq_false_iff.mpr hpop
    have hsplit := js_split s i hin hkept
    have hrow : rowStep s s 0 s.length st i =
        ((((List.range' 0 i).filter
            (fun j => s.get? j == some (s.getD i ' '))) ++
          i :: ((List.range' (i + 1) (s.length - (i + 1))).filter
            (fun j => s.get? j == some (s.getD i ' ')))).foldl
          (innerStep st.2 i) (st.1, fun _ => 0)) := by
      unfold rowStep
      rw [hsplit, hfiltid]
      intro j hj
      rcases List.mem_append.mp hj with hj1 | hj2
      · have := List.mem_range'_1.mp (List.mem_filter.mp hj1).1
        omega
      · rcases List.mem_cons.mp hj2 with rfl | hj3
        · exact hin
        · have := List.mem_range'_1.mp (List.mem_filter.mp hj3).1
          omega
    rw [hrow, List.foldl_append]
    -- phase A
    have hL1 : ∀ j ∈ (List.range' 0 i).filter
        (fun j => s.get? j == some (s.getD i ' ')), j < i ∧ s.get? j = some (s.getD i ' ') := by
      intro j hj
      have hm := List.mem_filter.mp hj
      have hr := List.mem_range'_1.mp hm.1
      refine ⟨by omega, by simpa using hm.2⟩
    have hA := selfPhaseA s i hkept st.2 g4 st.1 g2 _ hL1 (st.1, fun _ => 0)
      ⟨rfl, fun jp => Or.inl rfl⟩
    -- phase B: the diagonal element
    set stA := ((List.range' 0 i).filter
      (fun j => s.get? j == some (s.getD i ' '))).foldl (innerStep st.2 i)
      (st.1, fun _ => 0) with hstA
    rw [List.foldl_cons]
    have hkdiag : (if i = 0 then 0 else st.2 (i - 1)) + 1 = kr s i := by
      cases i with
      | zero =>
        rw [if_pos rfl, kr_zero_kept s hkept]
      | succ ii =>
        rw [if_neg (Nat.succ_ne_zero ii), Nat.add_sub_cancel,
          kr_succ_kept s ii hkept, g5 ii rfl]
    have hB : (innerStep st.2 i stA i).1 =
        (if maxKrB s i < kr s i then
          (⟨i + 1 - kr s i, i + 1 - kr s i, kr s i⟩ : BestM) else st.1) ∧
        (innerStep st.2 i stA i).2 i = kr s i ∧
        (∀ jp, (innerStep st.2 i stA i).2 jp = 0 ∨
          ((innerStep st.2 i stA i).2 jp ≤ kr s jp ∧
           (innerStep st.2 i stA i).2 jp ≤ kr s i)) := by
      rw [innerStep_def]
      refine ⟨?_, ?_, ?_⟩
      · dsimp only
        rw [hkdiag, hA.1, g2]
      · dsimp only
        rw [if_pos rfl, hkdiag]
      · intro jp
        dsimp only
        rw [hkdiag]
        split
        · rename_i hji
          subst hji
          exact Or.inr ⟨Nat.le_refl _, Nat.le_refl _⟩
        · exact hA.2 jp
    -- phase C
    set stB := innerStep st.2 i stA i with hstB
    have hbest1size : kr s i ≤ stB.1.size := by
      rw [hB.1]
      split
      · exact Nat.le_refl _
      · rename_i hlt
        rw [g2]
        omega
    have hL2 : ∀ j ∈ (List.range' (i + 1) (s.length - (i + 1))).filter
        (fun j => s.get? j == some (s.getD i ' ')),
        i < j ∧ s.get? j = some (s.getD i ' ') := by
      intro j hj
      have hm := List.mem_filter.mp hj
      have hr := List.mem_range'_1.mp hm.1
      refine ⟨by omega, by simpa using hm.2⟩
    have hC := selfPhaseC s i hkept st.2 g4 stB.1 hbest1size _ hL2 stB
      ⟨rfl, hB.2.2, hB.2.1⟩
    refine ⟨?_, ?_, ?_, ?_, ?_⟩
    · rw [hC.1, hB.1]
      split
      · rfl
      · exact g1
    · rw [hC.1, hB.1]
      show _ = max (maxKrB s i) (kr s i)
      split
      · rename_i hlt
        show kr s i = max (maxKrB s i) (kr s i)
        exact (Nat.max_eq_right (Nat.le_of_lt hlt)).symm
      · rename_i hlt
        rw [g2]
        exact (Nat.max_eq_left (by omega)).symm
    · rw [hC.1, hB.1]
      split
      · show i + 1 - kr s i + kr s i ≤ i + 1
        have := kr_le_succ s i
        omega
      · show st.1.besti + st.1.size ≤ i + 1
        omega
    · intro j
      rcases hC.2.1 j with h0 | ⟨hb1, hb2⟩
      · exact Or.inl h0
      · refine Or.inr ⟨hb1, by omega, ?_⟩
        simpa using hb2
    · intro j hj
      have hji : j = i := by omega
      subst hji
      exact hC.2.2

/-- the backward extension of a diagonal block on the self comparison
runs all the way to the start: every compared character pair is equal. -/
theorem ebF_diag (s : List Char) : ∀ d S : Nat,
    extendBackF s s 0 0 d ⟨d, d, S⟩ = ⟨0, 0, d + S⟩
  | 0, S => by
    show (⟨0, 0, S⟩ : BestM) = ⟨0, 0, 0 + S⟩
    rw [Nat.zero_add]
  | d + 1, S => by
    simp only [extendBackF]
    split
    case isTrue hc =>
      show extendBackF s s 0 0 d ⟨d + 1 - 1, d + 1 - 1, S + 1⟩ = _
      rw [Nat.add_sub_cancel, ebF_diag s d (S + 1)]
      congr 1
      omega
    case isFalse hc =>
      exact absurd ⟨by omega, by omega, by trivial⟩ hc

/-- the forward extension of a diagonal prefix block on the self
comparison runs all the way to the end. -/
theorem efF_diag (s : List Char) (n : Nat) : ∀ (k t : Nat), t + k = n →
    extendFwdF s s n n k ⟨0, 0, t⟩ = ⟨0, 0, n⟩
  | 0, t, h => by
    show (⟨0, 0, t⟩ : BestM) = ⟨0, 0, n⟩
    rw [show t = n from by omega]
  | k + 1, t, h => by
    simp only [extendFwdF]
    split
    case isTrue hc =>
      show extendFwdF s s n n k ⟨0, 0, t + 1⟩ = _
      exact efF_diag s n k (t + 1) (by omega)
    case isFalse hc =>
      exact absurd ⟨by show (0 : Nat) + t < n; omega,
        by show (0 : Nat) + t < n; omega, by trivial⟩ hc

/-- find_longest_match of a string against itself returns the whole
string, including under the autojunk purge. -/
theorem flm_self (s : List Char) :
    findLongestMatch s s 0 s.length 0 s.length = ⟨0, 0, s.length⟩ := by
  have base : SelfInv s 0 (⟨0, 0, 0⟩, fun _ => 0) :=
    ⟨rfl, rfl, Nat.le_refl 0, fun j => Or.inl rfl, fun j hj => absurd hj (by omega)⟩
  have rows := foldlRangeInv (SelfInv s) (rowStep s s 0 s.length) s.length 0
    (⟨0, 0, 0⟩, fun _ => 0) base
    (fun i st hi hi2 hp => selfRow s i (by omega) st hp)
  rw [Nat.zero_add] at rows
  obtain ⟨g1, g2, g3, -, -⟩ := rows
  simp only [findLongestMatch, Nat.sub_zero]
  rcases hms : ((List.range' 0 s.length).foldl (rowStep s s 0 s.length)
      (⟨0, 0, 0⟩, fun _ => 0)).1 with ⟨bi, bj, S⟩
  rw [hms] at g1 g3
  dsimp only at g1 g3
  subst g1
  show extendFwd s s s.length s.length (extendBackF s s 0 0 bj ⟨bj, bj, S⟩) = _
  rw [ebF_diag s bj S]
  show extendFwdF s s s.length s.length (s.length - (bj + S)) ⟨0, 0, bj + S⟩ = _
  exact efF_diag s s.length (s.length - (bj + S)) (bj + S) (by omega)

/-- the matched total of the self comparison is the whole length. -/
theorem msum_self (s : List Char) : msum s s 0 s.length 0 s.length = s.length := by
  unfold msum
  simp only [msumF]
  rw [if_pos ⟨Nat.zero_le _, Nat.zero_le _⟩, flm_self]
  dsimp only
  cases hn : s.length with
  | zero => rw [if_pos rfl]
  | succ n =>
    rw [if_neg (Nat.succ_ne_zero n), if_neg (by omega), if_neg (by omega)]

/-- similarity of any string with itself is 1 (also for the empty
string, where _calculate_ratio returns 1.0 outright). -/
theorem sim_self (a : String) : similarity a a = 1 := by
  unfold similarity
  rw [show a.length = a.data.length from rfl]
  rcases Nat.eq_zero_or_pos a.data.length with h0 | hpos
  · rw [if_pos (by omega)]
  · rw [if_neg (by omega), msum_self]
    have hq : (0 : ℚ) < ((a.data.length + a.data.length : Nat) : ℚ) := by
      exact_mod_cast by omega
    rw [div_eq_one_iff_eq (by exact_mod_cast hq.ne')]
    push_cast
    ring

/-- with an empty b-range the row loops never fire and no block is found. -/
theorem flm_b0 (a b : List Char) (alo ahi : Nat) :
    findLongestMatch a b alo ahi 0 0 = ⟨alo, 0, 0⟩ := by
  have hrows : ∀ l : List Nat, (l.foldl (rowStep a b 0 0)
      (⟨alo, 0, 0⟩, fun _ => 0)).1 = (⟨alo, 0, 0⟩ : BestM) := by
    intro l
    refine foldlPreserve (fun st : BestM × (Nat → Nat) => st.1 = (⟨alo, 0, 0⟩ : BestM))
      (rowStep a b 0 0) l (⟨alo, 0, 0⟩, fun _ => 0) rfl ?_
    intro st i hi hst
    unfold rowStep
    rw [show (b2j b (a.getD i ' ')).filter (fun j => decide (0 ≤ j) && decide (j < 0)) = []
      from List.filter_eq_nil.mpr (fun j _ => by simp)]
    exact hst
  have hback : ∀ (fuel : Nat) (m : BestM), m.bestj = 0 →
      extendBackF a b alo 0 fuel m = m := by
    intro fuel m hm
    cases fuel with
    | zero => rfl
    | succ f =>
      simp only [extendBackF]
      rw [if_neg (by rw [hm]; omega)]
  have hfwd : ∀ (fuel : Nat) (m : BestM), extendFwdF a b ahi 0 fuel m = m := by
    intro fuel m
    cases fuel with
    | zero => rfl
    | succ f =>
      simp only [extendFwdF]
      rw [if_neg (by omega)]
  simp only [findLongestMatch]
  rw [hrows]
  show extendFwd a b ahi 0 (extendBackF a b alo 0 _ _) = _
  rw [hback _ _ rfl]
  show extendFwdF a b ahi 0 _ _ = _
  rw [hfwd]

/-- the matched total against an empty b is 0. -/
theorem msum_b0 (a b : List Char) (alo ahi : Nat) : msum a b alo ahi 0 0 = 0 := by
  unfold msum
  simp only [msumF]
  split
  · rw [flm_b0]
    simp
  · rfl

theorem length_ne_zero_of_ne_empty (a : String) (h : a ≠ "") :
    a.data.length ≠ 0 := by
  intro hz
  apply h
  cases a with
  | mk d =>
    cases d with
    | nil => rfl
    | cons c cs => simp at hz

/-- similarity against the empty reference is 0 for non-empty a. -/
theorem sim_empty (a : String) (h : a ≠ "") : similarity a "" = 0 := by
  unfold similarity
  rw [show ("" : String).length = 0 from rfl,
    show a.length = a.data.length from rfl,
    show ("" : String).data = ([] : List Char) from rfl]
  have hz := length_ne_zero_of_ne_empty a h
  rw [if_neg (by omega), msum_b0]
  norm_num

/-- the matched total never exceeds either range. -/
theorem msumF_le (a b : List Char) : ∀ (fuel alo ahi blo bhi : Nat), alo ≤ ahi → blo ≤ bhi →
    msumF a b fuel alo ahi blo bhi ≤ ahi - alo ∧ msumF a b fuel alo ahi blo bhi ≤ bhi - blo
  | 0, alo, ahi, blo, bhi, halo, hblo => by
    constructor <;> simp [msumF]
  | fuel + 1, alo, ahi, blo, bhi, halo, hblo => by
    simp only [msumF]
    rw [if_pos ⟨halo, hblo⟩]
    have bounds := flm_le a b alo ahi blo bhi halo hblo
    rcases hm : findLongestMatch a b alo ahi blo bhi with ⟨bi, bj, k⟩
    dsimp only
    rw [hm] at bounds
    dsimp only at bounds
    obtain ⟨hb1, hb2, hb3, hb4⟩ := bounds
    split
    · constructor <;> omega
    · have hL : (if alo < bi ∧ blo < bj then msumF a b fuel alo bi blo bj else 0) ≤ bi - alo ∧
          (if alo < bi ∧ blo < bj then msumF a b fuel alo bi blo bj else 0) ≤ bj - blo := by
        split
        · exact msumF_le a b fuel alo bi blo bj (by omega) (by omega)
        · constructor <;> omega
      have hR : (if bi + k < ahi ∧ bj + k < bhi then
            msumF a b fuel (bi + k) ahi (bj + k) bhi else 0) ≤ ahi - (bi + k) ∧
          (if bi + k < ahi ∧ bj + k < bhi then
            msumF a b fuel (bi + k) ahi (bj + k) bhi else 0) ≤ bhi - (bj + k) := by
        split
        · exact msumF_le a b fuel (bi + k) ahi (bj + k) bhi (by omega) (by omega)
        · constructor <;> omega
      constructor <;> omega

/-- the matched total of the full comparison is at most each length. -/
theorem msum_le (a b : List Char) (la lb : Nat) :
    msum a b 0 la 0 lb ≤ la ∧ msum a b 0 la 0 lb ≤ lb := by
  unfold msum
  have h := msumF_le a b (la - 0 + (lb - 0) + 1) 0 la 0 lb (Nat.zero_le _) (Nat.zero_le _)
  omega

/-- the ratio always lies in [0, 1]. -/
theorem similarity_mem (a b : String) : 0 ≤ similarity a b ∧ similarity a b ≤ 1 := by
  unfold similarity
  split
  · norm_num
  · rename_i hne
    have hM := msum_le a.data b.data a.length b.length
    have hpos : (0 : ℚ) < ((a.length + b.length : Nat) : ℚ) := by
      exact_mod_cast Nat.pos_of_ne_zero hne
    constructor
    · apply div_nonneg
      · positivity
      · exact le_of_lt hpos
    · rw [div_le_one hpos]
      have h2 : 2 * msum a.data b.data 0 a.length 0 b.length ≤ a.length + b.length := by
        omega
      exact_mod_cast h2

/-! ## Concrete evaluations used by the claims -/

theorem round2_zero : round2 0 = 0 := by
  unfold round2
  norm_num

theorem round2_one : round2 1 = 1 := by
  unfold round2
  norm_num

/-- 3800/51 has floor 74 and fractional part 26/51 > 1/2, so Python
round(38/51, 2) gives 0.75. -/
theorem round2_c10 : round2 ((38 : ℚ) / 51) = 3 / 4 := by
  unfold round2
  have hfl : ⌊(38 : ℚ) / 51 * 100⌋ = 74 := by
    rw [Int.floor_eq_iff]
    norm_num
  rw [hfl]
  norm_num

theorem sim_ab : similarity "ab" "ab" = 1 := by
  have hm : msum "ab".data "ab".data 0 ("ab" : String).length 0 ("ab" : String).length = 2 := by
    decide
  have hl : ("ab" : String).length = 2 := rfl
  unfold similarity
  rw [hm, hl]
  norm_num

/-- a 19-character reference fully contained in a 32-character excerpt:
19 matched characters over total length 51, ratio 38/51 ≈ 0.7451. -/
theorem sim_c10 :
    similarity "abcdefghijklmnopqrs0123456789ABC" "abcdefghijklmnopqrs" = 38 / 51 := by
  have hm : msum ("abcdefghijklmnopqrs0123456789ABC" : String).data
      ("abcdefghijklmnopqrs" : String).data 0
      ("abcdefghijklmnopqrs0123456789ABC" : String).length 0
      ("abcdefghijklmnopqrs" : String).length = 19 := by decide
  have hla : ("abcdefghijklmnopqrs0123456789ABC" : String).length = 32 := rfl
  have hlb : ("abcdefghijklmnopqrs" : String).length = 19 := rfl
  unfold similarity
  rw [hm, hla, hlb]
  norm_num

/-! ## The claims -/

/-- C2: a well-formed three-line triplet (nickname line, timestamp line,
excerpt line) parses to exactly the one entry made of the trimmed
nickname, the verbatim digit token and the trimmed excerpt, both as the
whole input and at the head of a longer input. -/
theorem claim_C2 (l1 l2 l3 : String) (n t : String)
    (hn : nickMatch (stripS l1) = some n) (ht : timeMatch (stripS l2) = some t) :
    parse_checkin [l1, l2, l3] = [(n, t, excerptOf l3)] ∧
    stripS n = n ∧
    stripS (excerptOf l3) = excerptOf l3 ∧
    (∀ rest, parse_checkin (l1 :: l2 :: l3 :: rest) = (n, t, excerptOf l3) :: parse_checkin rest) := by
  refine ⟨?_, nickMatch_trimmed _ _ hn, excerptOf_trimmed l3, fun rest => parse_cons_full _ _ _ _ _ _ hn ht⟩
  rw [parse_cons_full _ _ _ _ _ _ hn ht]
  rfl

/-- witness for C2 at the Scenario 1 lines. -/
theorem claim_C2_witness :
    parse_checkin ["昵称：小明", "打卡时间：2026/3/5", "论文摘要的随机一句话：这是一句摘录。"] =
      [("小明", "2026/3/5", excerptOf "论文摘要的随机一句话：这是一句摘录。")] ∧
    stripS "小明" = "小明" :=
  ⟨(claim_C2 "昵称：小明" "打卡时间：2026/3/5" "论文摘要的随机一句话：这是一句摘录。"
      "小明" "2026/3/5" (by decide) (by decide)).1,
   (claim_C2 "昵称：小明" "打卡时间：2026/3/5" "论文摘要的随机一句话：这是一句摘录。"
      "小明" "2026/3/5" (by decide) (by decide)).2.1⟩

/-- C3: no entry from a partial match: a non-nickname line, or a nickname
line with a malformed (or absent) timestamp line, advances the cursor by
exactly 1 and the scan resumes at the next line; a full match advances by
3; and with no complete triplet anywhere the parse is empty, not an
error. -/
theorem claim_C3 :
    (∀ l0 rest, nickMatch (stripS l0) = none →
      parse_checkin (l0 :: rest) = parse_checkin rest) ∧
    (∀ l0 l1 rest n, nickMatch (stripS l0) = some n → timeMatch (stripS l1) = none →
      parse_checkin (l0 :: l1 :: rest) = parse_checkin (l1 :: rest)) ∧
    (∀ l0, parse_checkin [l0] = []) ∧
    (∀ l0 l1, parse_checkin [l0, l1] = []) ∧
    (∀ l0 l1 l2 rest n t, nickMatch (stripS l0) = some n → timeMatch (stripS l1) = some t →
      parse_checkin (l0 :: l1 :: l2 :: rest) = (n, t, excerptOf l2) :: parse_checkin rest) ∧
    (∀ lines : List String,
      (∀ i a bl, lines.get? i = some a → lines.get? (i + 1) = some bl →
        lines.get? (i + 2) ≠ none →
        ¬((nickMatch (stripS a)).isSome ∧ (timeMatch (stripS bl)).isSome)) →
      parse_checkin lines = []) :=
  ⟨fun l0 rest hn => parse_skip_nick l0 rest hn,
   fun l0 l1 rest n hn ht => parse_skip_time l0 l1 rest n hn ht,
   fun _ => rfl, fun _ _ => rfl,
   fun l0 l1 l2 rest n t hn ht => parse_cons_full l0 l1 l2 rest n t hn ht,
   parse_no_triplet⟩

/-- witness for C3: a malformed middle line loses the first start but the
later triplet is still found; and a sequence with no triplet parses to []. -/
theorem claim_C3_witness :
    parse_checkin ["昵称：小明", "打卡时间不对", "昵称：小红", "打卡时间：2026/3/5", "句子"] =
      parse_checkin ["打卡时间不对", "昵称：小红", "打卡时间：2026/3/5", "句子"] ∧
    parse_checkin ["你好", "世界"] = [] :=
  ⟨(claim_C3.2.1) "昵称：小明" "打卡时间不对" ["昵称：小红", "打卡时间：2026/3/5", "句子"]
      "小明" (by decide) (by decide),
   (claim_C3.2.2.2.2.2) ["你好", "世界"]
     (fun i a bl h1 h2 h3 =>
       absurd (List.get?_eq_none.mpr (by simp)) h3)⟩

/-- C5: with an empty reference abstract every entry gets similarity
score 0.0, a failed similarity check and hence passed = false, whatever
the excerpt, roster and date are; the step is total, not an error. -/
theorem claim_C5 (roster : List String) (today : Nat × Nat × Nat) (e : Entry) :
    (verdictOf "" roster today e).sim = 0 ∧
    (verdictOf "" roster today e).simPass = false ∧
    (verdictOf "" roster today e).passed = false := by
  refine ⟨?_, ?_, ?_⟩ <;> simp [verdictOf, round2_zero]

/-- C6: nickname validation: an empty roster accepts everyone; a
non-empty roster accepts exactly the nicknames in bidirectional
substring containment with some member; roster ["小明同学"] accepts
"小明" and roster ["张三"] rejects it. -/
theorem claim_C6 :
    (∀ abstract today e, (verdictOf abstract [] today e).nickValid = true) ∧
    (∀ abstract today e roster, roster ≠ [] →
      ((verdictOf abstract roster today e).nickValid = true ↔
        ∃ m ∈ roster, (isSub e.nickname m || isSub m e.nickname) = true)) ∧
    (verdictOf "" ["小明同学"] (2026, 3, 5)
      ⟨"小明", "2026/3/5", "这是一句摘录。"⟩).nickValid = true ∧
    (verdictOf "" ["张三"] (2026, 3, 5)
      ⟨"小明", "2026/3/5", "这是一句摘录。"⟩).nickValid = false := by
  refine ⟨?_, ?_, ?_, ?_⟩
  · intro abstract today e
    simp [verdictOf]
  · intro abstract today e roster hne
    have : roster.isEmpty = false := by
      cases roster
      · exact absurd rfl hne
      · rfl
    simp [verdictOf, this, List.any_eq_true]
  · decide
  · decide

/-- witness for C6 instantiating the roster-nonempty criterion. -/
theorem claim_C6_witness :
    ((verdictOf "" ["张三"] (2026, 3, 5)
        ⟨"小明", "2026/3/5", "这是一句摘录。"⟩).nickValid = true ↔
      ∃ m ∈ ["张三"], (isSub "小明" m || isSub m "小明") = true) :=
  claim_C6.2.1 "" (2026, 3, 5) ⟨"小明", "2026/3/5", "这是一句摘录。"⟩ ["张三"] (by decide)

/-- C7: passed is exactly the conjunction of the three checks, the record
is appended to the record store, and it is appended to the pending-review
set precisely when it did not pass. -/
theorem claim_C7 (abstract : String) (roster : List String) (today : Nat × Nat × Nat)
    (st : AppState) (e : Entry) :
    (verdictOf abstract roster today e).passed =
      ((verdictOf abstract roster today e).dateValid &&
       (verdictOf abstract roster today e).simPass &&
       (verdictOf abstract roster today e).nickValid) ∧
    (processEntry abstract roster today st e).records =
      st.records ++ [verdictOf abstract roster today e] ∧
    (processEntry abstract roster today st e).pending_review =
      st.pending_review ++
        (if (verdictOf abstract roster today e).passed then [] else [st.records.length]) ∧
    ((verdictOf abstract roster today e).passed = false ↔
      (processEntry abstract roster today st e).pending_review =
        st.pending_review ++ [st.records.length]) := by
  refine ⟨by simp [verdictOf], rfl, rfl, ?_⟩
  cases hp : (verdictOf abstract roster today e).passed with
  | false => simp [processEntry, hp]
  | true =>
    simp only [processEntry, hp, if_true]
    constructor
    · intro h; cases h
    · intro h
      have := congrArg List.length h
      simp at this

/-- C8: with a non-empty reference abstract the similarity score is
computed and recorded in every verdict record, independently of the date
and nickname outcomes, and all three check results are recorded; the
concrete record shows a computed score 1 despite both other checks
failing. -/
theorem claim_C8 (abstract : String) (roster : List String) (today : Nat × Nat × Nat)
    (e : Entry) (h : abstract ≠ "") :
    ((verdictOf abstract roster today e).sim =
      round2 (similarity e.sentence abstract) ∧
     (verdictOf abstract roster today e).simPass =
      decide (THRESHOLD ≤ similarity e.sentence abstract) ∧
     (verdictOf abstract roster today e).dateValid =
      (e.punch_time == todayStr today.1 today.2.1 today.2.2) ∧
     (verdictOf abstract roster today e).nickValid =
      (if roster.isEmpty then true
       else roster.any (fun m => isSub e.nickname m || isSub m e.nickname))) ∧
    ((verdictOf "ab" ["张三"] (2026, 3, 5) ⟨"小明", "x", "ab"⟩).sim = 1 ∧
     (verdictOf "ab" ["张三"] (2026, 3, 5) ⟨"小明", "x", "ab"⟩).simPass = true ∧
     (verdictOf "ab" ["张三"] (2026, 3, 5) ⟨"小明", "x", "ab"⟩).dateValid = false ∧
     (verdictOf "ab" ["张三"] (2026, 3, 5) ⟨"小明", "x", "ab"⟩).nickValid = false) := by
  have hd : ("ab" : String) ≠ "" := by decide
  have hf := verdictOf_fields "ab" ["张三"] (2026, 3, 5) ⟨"小明", "x", "ab"⟩ hd
  refine ⟨verdictOf_fields abstract roster today e h, ?_, ?_, ?_, ?_⟩
  · rw [hf.1]
    show round2 (similarity "ab" "ab") = 1
    rw [sim_ab, round2_one]
  · rw [hf.2.1]
    show decide (THRESHOLD ≤ similarity "ab" "ab") = true
    rw [sim_ab]
    show decide ((3 : ℚ) / 4 ≤ 1) = true
    norm_num
  · rw [hf.2.2.1]
    decide
  · rw [hf.2.2.2]
    decide

/-- witness for C8 at a concrete non-empty abstract. -/
theorem claim_C8_witness :
    (verdictOf "ab" ["张三"] (2026, 3, 5) ⟨"小明", "x", "ab"⟩).sim =
      round2 (similarity "ab" "ab") ∧
    (verdictOf "ab" ["张三"] (2026, 3, 5) ⟨"小明", "x", "ab"⟩).simPass =
      decide (THRESHOLD ≤ similarity "ab" "ab") :=
  ⟨((claim_C8 "ab" ["张三"] (2026, 3, 5) ⟨"小明", "x", "ab"⟩ (by decide)).1).1,
   ((claim_C8 "ab" ["张三"] (2026, 3, 5) ⟨"小明", "x", "ab"⟩ (by decide)).1).2.1⟩

/-- C9: the force-approve action sets passed = true on exactly the
pending records, touches no other field, empties the pending set, and a
second call on the emptied set is a no-op. -/
theorem claim_C9 (st : AppState) :
    (forceApproveAll st).pending_review = [] ∧
    (∀ i, (forceApproveAll st).records.get? i =
        (st.records.get? i).map
          (fun r => if i ∈ st.pending_review then { r with passed := true } else r)) ∧
    forceApproveAll (forceApproveAll st) = forceApproveAll st := by
  refine ⟨rfl, ?_, ?_⟩
  · intro i
    have := approveFrom_get st.pending_review st.records 0 i
    simpa using this
  · simp [forceApproveAll, approveFrom_nil]

/-- C1 counterexample: on day 2026-03-05 the Scenario 1 lines parse to
the entry with timestamp "2026/3/5", which is today's date in the
unpadded YYYY/M/D form the claim mandates, yet the verdict record has
dateValid = false, because the source formats today with strftime
%Y/%m/%d, which zero-pads. -/
theorem claim_C1_cex :
    parse_checkin ["昵称：小明", "打卡时间：2026/3/5", "论文摘要的随机一句话：这是一句摘录。"] =
      [("小明", "2026/3/5", "这是一句摘录。")] ∧
    "2026/3/5" = specTodayUnpadded 2026 3 5 ∧
    (verdictOf "" [] (2026, 3, 5)
      ⟨"小明", "2026/3/5", "这是一句摘录。"⟩).dateValid = false := by
  refine ⟨by decide, by decide, by decide⟩

/-- C1 as amended: dateValid holds iff the punch timestamp equals today
formatted by strftime %Y/%m/%d, which zero-pads the month and day; on
2026-03-05 that string is "2026/03/05", so the Scenario 1 entry (with
the unpadded timestamp "2026/3/5") gets dateValid = false, while a
zero-padded timestamp gets dateValid = true. -/
theorem claim_C1_amended :
    (∀ abstract roster y m d e,
      (verdictOf abstract roster (y, m, d) e).dateValid =
        (e.punch_time == todayStr y m d)) ∧
    todayStr 2026 3 5 = "2026/03/05" ∧
    (verdictOf "" [] (2026, 3, 5)
      ⟨"小明", "2026/3/5", "这是一句摘录。"⟩).dateValid = false ∧
    (verdictOf "" [] (2026, 3, 5)
      ⟨"小明", "2026/03/05", "这是一句摘录。"⟩).dateValid = true := by
  refine ⟨?_, by decide, by decide, by decide⟩
  intro abstract roster y m d e
  simp [verdictOf]

/-- C10: the record stores the similarity rounded to two decimals while
the threshold check uses the unrounded value; the concrete pair of
strings of lengths 32 and 19 has raw ratio 38/51, which lies in
[0.745, 0.75), is stored as 0.75, yet fails the check. -/
theorem claim_C10 :
    (∀ abstract roster today e, abstract ≠ "" →
      (verdictOf abstract roster today e).sim =
        round2 (similarity e.sentence abstract) ∧
      (verdictOf abstract roster today e).simPass =
        decide (THRESHOLD ≤ similarity e.sentence abstract)) ∧
    similarity "abcdefghijklmnopqrs0123456789ABC" "abcdefghijklmnopqrs" = 38 / 51 ∧
    ((149 : ℚ) / 200 ≤ 38 / 51 ∧ (38 : ℚ) / 51 < 3 / 4) ∧
    round2 ((38 : ℚ) / 51) = 3 / 4 ∧
    (verdictOf "abcdefghijklmnopqrs" [] (2026, 3, 5)
      ⟨"小明", "2026/3/5", "abcdefghijklmnopqrs0123456789ABC"⟩).sim = 3 / 4 ∧
    (verdictOf "abcdefghijklmnopqrs" [] (2026, 3, 5)
      ⟨"小明", "2026/3/5", "abcdefghijklmnopqrs0123456789ABC"⟩).simPass = false := by
  have hd : ("abcdefghijklmnopqrs" : String) ≠ "" := by decide
  have hf := verdictOf_fields "abcdefghijklmnopqrs" [] (2026, 3, 5)
    ⟨"小明", "2026/3/5", "abcdefghijklmnopqrs0123456789ABC"⟩ hd
  refine ⟨?_, sim_c10, by norm_num, round2_c10, ?_, ?_⟩
  · intro abstract roster today e h
    exact ⟨(verdictOf_fields abstract roster today e h).1,
      (verdictOf_fields abstract roster today e h).2.1⟩
  · rw [hf.1]
    show round2 (similarity "abcdefghijklmnopqrs0123456789ABC" "abcdefghijklmnopqrs") = 3 / 4
    rw [sim_c10, round2_c10]
  · rw [hf.2.1]
    show decide (THRESHOLD ≤
      similarity "abcdefghijklmnopqrs0123456789ABC" "abcdefghijklmnopqrs") = false
    rw [sim_c10]
    show decide ((3 : ℚ) / 4 ≤ 38 / 51) = false
    norm_num

/-- C4: the similarity scorer maps into [0, 1], gives 1.0 on any string
compared with itself, 0.0 on any non-empty string compared with the
empty string, and works on raw characters with no normalization (the
embedding operates on the character lists of the inputs verbatim). -/
theorem claim_C4 (a : String) (h : a ≠ "") :
    similarity a a = 1 ∧ similarity a "" = 0 ∧
    ∀ b : String, 0 ≤ similarity a b ∧ similarity a b ≤ 1 :=
  ⟨sim_self a, sim_empty a h, fun b => similarity_mem a b⟩

/-- witness for C4 at a concrete non-empty string. -/
theorem claim_C4_witness :
    similarity "ab" "ab" = 1 ∧ similarity "ab" "" = 0 ∧
    ∀ b : String, 0 ≤ similarity "ab" b ∧ similarity "ab" b ≤ 1 :=
  claim_C4 "ab" (by decide)

/-- witness for C10 at the concrete abstract of 19 characters. -/
theorem claim_C10_witness :
    (verdictOf "abcdefghijklmnopqrs" [] (2026, 3, 5)
      ⟨"小明", "2026/3/5", "abcdefghijklmnopqrs0123456789ABC"⟩).sim =
      round2 (similarity "abcdefghijklmnopqrs0123456789ABC" "abcdefghijklmnopqrs") :=
  (claim_C10.1 "abcdefghijklmnopqrs" [] (2026, 3, 5)
    ⟨"小明", "2026/3/5", "abcdefghijklmnopqrs0123456789ABC"⟩ (by decide)).1

end PunchApp
